import Mathlib

/-!
Shallow embedding of the RGI MRP system (src/app.py): the 8-character code
normalizer, the RM replacement and dilution transforms, and the FIFO
production-planning allocation engine of tab 5.  Quantities are modelled as
exact rationals; Python `round(x, d)` is modelled by rounding `x * 10^d` to
the nearest integer.  Stock dictionaries are modelled as association lists,
so that an RM code absent from the stock reads as availability 0 while a
depletion step only updates keys that are present, as in the source.
-/

namespace MRP

/-- Python `round(x, d)`: round to `d` decimal places. -/
def roundTo (d : ℕ) (x : ℚ) : ℚ := ((round (x * 10 ^ d) : ℤ) : ℚ) / 10 ^ d

/-- Python `abs` on rationals. -/
def absQ (x : ℚ) : ℚ := if x < 0 then -x else x

/-- Python fixed-point formatting `f"{x:.{d}f}"` of a rational. -/
def fmtFixed (d : ℕ) (x : ℚ) : String :=
  let n : ℤ := round (x * 10 ^ d)
  let sign := if n < 0 then "-" else ""
  let m : ℕ := n.natAbs
  let ip : ℕ := m / 10 ^ d
  let fp : ℕ := m % 10 ^ d
  let fps := Nat.repr fp
  if d = 0 then sign ++ Nat.repr ip
  else sign ++ Nat.repr ip ++ "." ++
    (String.mk (List.replicate (d - fps.length) '0') ++ fps)

/-- Python `str.strip()` (whitespace model): drop whitespace at both ends. -/
def pyStrip (s : String) : String :=
  String.mk (((s.data.dropWhile Char.isWhitespace).reverse.dropWhile
    Char.isWhitespace).reverse)

/-- Python `str.isdigit()` on the ASCII-digit fragment: nonempty and all digits. -/
def isdigitStr (s : String) : Bool := !s.data.isEmpty && s.data.all Char.isDigit

/-- Python `str.zfill(n)`: left-pad with zeros to width `n`. -/
def zfill (n : ℕ) (s : String) : String :=
  String.mk (List.replicate (n - s.data.length) '0') ++ s

/-- Python `str.ljust(n, c)` specialised to the `'0'` pad used in the source. -/
def ljustZero (n : ℕ) (s : String) : String :=
  s ++ String.mk (List.replicate (n - s.data.length) '0')

/-- The normalizer `preserve_8char_code` (src/app.py lines 82-105) on a string value:
trim, then zero-pad-left all-digit codes to 8, and right-pad with `'0'`
or truncate other codes to exactly 8 characters. -/
def preserve_8char_code_str (code : String) : String :=
  let s := pyStrip code
  if isdigitStr s then zfill 8 s
  else if s.data.length < 8 then ljustZero 8 s
  else if 8 < s.data.length then String.mk (s.data.take 8)
  else s

/-- The normalizer `preserve_8char_code` on an input cell: `none` models a missing value
(`pd.isna` true), which maps to the empty string. -/
def preserve_8char_code : Option String → String
  | none => ""
  | some c => preserve_8char_code_str c

/-- One row of the FG formula table: (FG code, RM code, quantity per batch). -/
structure FormulaRow where
  fg : String
  rm : String
  qty : ℚ
deriving DecidableEq, Inhabited

/-- One RM replacement rule: old RM code → new RM code. -/
structure ReplacementRule where
  old : String
  new : String
deriving DecidableEq, Inhabited

/-- One RM dilution rule: RM code → (component RM code, percentage share). -/
structure DilutionRule where
  rm : String
  component : String
  percentage : ℚ
deriving DecidableEq, Inhabited

/-- A stock dictionary: association list from RM code to quantity. -/
abbrev Stock := List (String × ℚ)

/-- Python `dict.get(k, 0)`: value at a key, 0 when absent. -/
def sget (s : Stock) (k : String) : ℚ := (List.lookup k s).getD 0

/-- Python `d[k] = v` on a dict modelled as an association list: update every
binding of the key, leave other bindings alone. -/
def supd (s : Stock) (k : String) (v : ℚ) : Stock :=
  s.map fun p => if p.1 = k then (p.1, v) else p

/-- Ordering on (FG, RM) group keys, as produced by `groupby` (lexicographic
ascending sort of the group keys). -/
def keyLe (a b : String × String) : Prop :=
  a.1 < b.1 ∨ (a.1 = b.1 ∧ a.2 ≤ b.2)

instance : DecidableRel keyLe := fun a b => by
  unfold keyLe; infer_instance

/-- Pandas `groupby` on (FG Code, RM Code) with quantity sum and reset index:
one row per distinct (FG, RM) key, keys sorted ascending, quantity the sum
over the rows with that key. -/
def groupSum (rows : List FormulaRow) : List FormulaRow :=
  let keys := ((rows.map fun r => (r.fg, r.rm)).dedup).insertionSort keyLe
  keys.map fun k =>
    ⟨k.1, k.2, ((rows.filter fun r => r.fg == k.1 && r.rm == k.2).map
      (fun r => r.qty)).sum⟩

/-- The replacement map of `apply_rm_replacement`: a dict built by inserting
the rules in order, so a later rule for the same (normalized) old code
overrides an earlier one.  `lookupLast rules k` is `replacement_map.get(k)`. -/
def lookupLast (rules : List ReplacementRule) (k : String) : Option String :=
  rules.foldl
    (fun acc r =>
      if preserve_8char_code_str r.old == k
      then some (preserve_8char_code_str r.new) else acc)
    none

/-- The transform `apply_rm_replacement` (src/app.py lines 108-131): rename RM codes in
formulas via the rule map (pass-through when unmapped), then merge duplicate
(FG, RM) rows by summing quantities.  No-op when either table is empty. -/
def apply_rm_replacement (rules : List ReplacementRule)
    (formulas : List FormulaRow) : List FormulaRow :=
  if rules.isEmpty || formulas.isEmpty then formulas
  else
    let modified := formulas.map fun row =>
      let rn := preserve_8char_code_str row.rm
      { row with rm := (lookupLast rules rn).getD rn }
    groupSum modified

/-- The component-quantity computation of `apply_dilution_rules`
(src/app.py lines 166-174): percentage share of the original quantity,
floored to 0.0001 when its absolute value is below 0.00005, then rounded
to 4 decimal places. -/
def componentQty (quantity percentage : ℚ) : ℚ :=
  let cq := quantity * (percentage / 100)
  let cq2 := if absQ cq < 0.00005 then 0.0001 else cq
  roundTo 4 cq2

/-- The transform `apply_dilution_rules` (src/app.py lines 134-187): explode each formula
row into one row per matching dilution rule (pass-through when none
matches), then merge duplicate (FG, RM) rows by summing.  No-op when the
rule table is empty. -/
def apply_dilution_rules (rules : List DilutionRule)
    (formulas : List FormulaRow) : List FormulaRow :=
  if rules.isEmpty then formulas
  else
    let diluted := formulas.flatMap fun row =>
      let rm := preserve_8char_code_str row.rm
      let comps := rules.filter fun dil => dil.rm == rm
      if comps.isEmpty then [⟨row.fg, rm, row.qty⟩]
      else comps.map fun dil =>
        ⟨row.fg, preserve_8char_code_str dil.component,
          componentQty row.qty dil.percentage⟩
    if diluted.isEmpty then diluted else groupSum diluted

/-- Per-FG allocation record, as appended to `results` in tab 5 (capacities
kept as numbers, status as the literal string the source emits). -/
structure FGResult where
  fg : String
  expected : ℚ
  maxCapacity : ℤ
  actualCapacity : ℤ
  status : String
  missingRms : List String
  batches : ℤ
  shortageBreakdown : List String
deriving DecidableEq, Inhabited

/-- Python `min(xs) if xs else 0`. -/
def minList : List ℤ → ℤ
  | [] => 0
  | x :: xs => xs.foldl min x

/-- Max-capacity pass, per formula row (src/app.py lines 1662-1673): batches
supported by the initial stock, 0 on invalid requirement or no stock. -/
def maxRowBatches (d : ℕ) (initialS : Stock) (row : FormulaRow) : ℤ :=
  let rm := preserve_8char_code_str row.rm
  let req := roundTo d row.qty
  let avail := sget initialS rm
  if req ≤ 0 ∨ avail ≤ 0 then 0 else ⌊avail / req⌋

/-- Expected-capacity mode, per formula row (src/app.py lines 1689-1717):
(supported batches, missing-RM entries, shortage-breakdown entries). -/
def expRow (d : ℕ) (alloc : Stock) (eb : ℤ) (row : FormulaRow) :
    ℤ × List String × List String :=
  let rm := preserve_8char_code_str row.rm
  let req := roundTo d row.qty
  let avail := sget alloc rm
  let totalReq := req * eb
  if totalReq ≤ 0 then
    (0, [], [rm ++ ": Invalid requirement (" ++ fmtFixed d req ++
      " Kg per batch)"])
  else if avail ≤ 0 then
    (0, [rm], [rm ++ ": Required " ++ fmtFixed d totalReq ++
      " Kg, Available 0.0000 Kg"])
  else if totalReq ≤ avail then (eb, [], [])
  else
    let mb := ⌊avail / req⌋
    if mb < eb then
      (mb, [rm], [rm ++ ": Required " ++ fmtFixed d totalReq ++ " Kg for " ++
        toString eb ++ " batches, Available " ++ fmtFixed d avail ++
        " Kg, Shortage " ++ fmtFixed d (totalReq - avail) ++ " Kg"])
    else (mb, [], [])

/-- Auto mode, per formula row (src/app.py lines 1720-1739):
(supported batches, missing-RM entries, shortage-breakdown entries). -/
def autoRow (d : ℕ) (alloc : Stock) (row : FormulaRow) :
    ℤ × List String × List String :=
  let rm := preserve_8char_code_str row.rm
  let req := roundTo d row.qty
  let avail := sget alloc rm
  if req ≤ 0 then
    (0, [], [rm ++ ": Invalid requirement (" ++ fmtFixed d req ++ " Kg)"])
  else if avail ≤ 0 then
    (0, [rm], [rm ++ ": Required " ++ fmtFixed d req ++
      " Kg per batch, Available 0.0000 Kg"])
  else
    let mb := ⌊avail / req⌋
    if mb = 0 then
      (mb, [rm], [rm ++ ": Required " ++ fmtFixed d req ++
        " Kg per batch, Available " ++ fmtFixed d avail ++ " Kg, Shortage " ++
        fmtFixed d (req - avail) ++ " Kg"])
    else (mb, [], [])

/-- Stock depletion for one formula row (src/app.py lines 1768-1772):
subtract the rounded total requirement, re-rounding, for keys present in
the allocated pool. -/
def depleteRow (d : ℕ) (ab : ℤ) (alloc : Stock) (row : FormulaRow) : Stock :=
  let rm := preserve_8char_code_str row.rm
  let reqTotal := roundTo d (row.qty * ab)
  if (List.lookup rm alloc).isSome then
    supd alloc rm (roundTo d (sget alloc rm - reqTotal))
  else alloc

/-- One iteration of the tab-5 allocation loop (src/app.py lines 1656-1783)
for an FG with a nonempty formula: computes the max-capacity pass against
the initial stock, the actual-capacity pass against the allocated pool
(expected-capacity mode when the expected capacity is positive, else auto
mode), the status string, and the depleted pool. -/
def processFG (d : ℕ) (initialS alloc : Stock) (ec : ℚ) (fg : String)
    (rows : List FormulaRow) : FGResult × Stock :=
  let maxB := minList (rows.map (maxRowBatches d initialS))
  let maxCap := maxB * 25
  let eb : ℤ := max 1 ⌊ec / 25⌋
  let possible : List ℤ :=
    if 0 < ec then rows.map fun r => (expRow d alloc eb r).1
    else rows.map fun r => (autoRow d alloc r).1
  let missing : List String :=
    if 0 < ec then rows.flatMap fun r => (expRow d alloc eb r).2.1
    else rows.flatMap fun r => (autoRow d alloc r).2.1
  let shortage : List String :=
    if 0 < ec then rows.flatMap fun r => (expRow d alloc eb r).2.2
    else rows.flatMap fun r => (autoRow d alloc r).2.2
  let ab : ℤ := if 0 < ec then min eb (minList possible) else minList possible
  let cap := ab * 25
  let status := if 25 ≤ cap then "✅ Ready" else "❌ Shortage"
  let alloc' :=
    if 0 < ab ∧ status = "✅ Ready" then rows.foldl (depleteRow d ab) alloc
    else alloc
  (⟨fg, ec, maxCap, cap, status, missing, ab, shortage⟩, alloc')

/-- The tab-5 allocation loop over the FIFO order: FGs without formula rows
are skipped, every other FG contributes one result and mutates the shared
allocated pool. -/
def allocateGo (d : ℕ) (formulas : List FormulaRow) (ec : List (String × ℚ))
    (initialS : Stock) : Stock → List String → List FGResult × Stock
  | alloc, [] => ([], alloc)
  | alloc, fg :: rest =>
    let rows := formulas.filter fun r => r.fg == fg
    if rows.isEmpty then allocateGo d formulas ec initialS alloc rest
    else
      let step := processFG d initialS alloc (sget ec fg) fg rows
      let next := allocateGo d formulas ec initialS step.2 rest
      (step.1 :: next.1, next.2)

/-- The whole allocation run (src/app.py lines 1629-1783): round the stock
snapshot to `d` decimal places, take the initial and allocated copies equal
to it, and process the FIFO order.  Returns the result list and the final
allocated pool. -/
def allocate (d : ℕ) (fifo : List String) (formulas : List FormulaRow)
    (stock : Stock) (ec : List (String × ℚ)) : List FGResult × Stock :=
  let stockR : Stock := stock.map fun p => (p.1, roundTo d p.2)
  allocateGo d formulas ec stockR stockR fifo

/-- Modelled from the spec, max-capacity pass of section 4.4 step 2: per
formula row, `floor(initial[rm] / qty_per_batch)` if the rounded per-batch
quantity and the initial stock are positive, else 0. -/
def maxRowBatchesSpec (d : ℕ) (initialS : Stock) (row : FormulaRow) : ℤ :=
  let rm := preserve_8char_code_str row.rm
  let qty := roundTo d row.qty
  let avail := sget initialS rm
  if 0 < qty ∧ 0 < avail then ⌊avail / qty⌋ else 0

/-- Modelled from the spec, section 4.4 step 2: the (FG, maxCapacity)
sequence determined by the formulas and the initial stock alone, for the
FGs of the FIFO order that have formula rows. -/
def maxCapacityListSpec (d : ℕ) (formulas : List FormulaRow)
    (initialS : Stock) (fifo : List String) : List (String × ℤ) :=
  fifo.filterMap fun fg =>
    let rows := formulas.filter fun r => r.fg == fg
    if rows.isEmpty then none
    else some (fg, minList (rows.map (maxRowBatchesSpec d initialS)) * 25)

/-- Modelled from the spec, section 4.4 step 3 (expected-capacity mode):
batches supported by one RM row against the allocated pool — the full
target when the pool covers the total requirement, 0 on an invalid
requirement or an unavailable RM, else the floor quotient. -/
def supportedBatchesSpec (d : ℕ) (alloc : Stock) (target : ℤ)
    (row : FormulaRow) : ℤ :=
  let rm := preserve_8char_code_str row.rm
  let qty := roundTo d row.qty
  let avail := sget alloc rm
  if qty * target ≤ 0 then 0
  else if avail ≤ 0 then 0
  else if qty * target ≤ avail then target
  else ⌊avail / qty⌋

/-! ### Basic lemmas about the numeric model -/

theorem round_le_round {x y : ℚ} (h : x ≤ y) : round x ≤ round y := by
  rw [round_eq, round_eq]
  exact Int.floor_le_floor (by linarith)

theorem roundTo_mono {d : ℕ} {x y : ℚ} (h : x ≤ y) :
    roundTo d x ≤ roundTo d y := by
  unfold roundTo
  have hp : (0 : ℚ) < 10 ^ d := by positivity
  have : round (x * 10 ^ d) ≤ round (y * 10 ^ d) :=
    round_le_round (by nlinarith)
  exact (div_le_div_iff_of_pos_right hp).mpr (by exact_mod_cast this)

theorem roundTo_zero (d : ℕ) : roundTo d 0 = 0 := by
  unfold roundTo
  simp

theorem roundTo_nonneg {d : ℕ} {x : ℚ} (h : 0 ≤ x) : 0 ≤ roundTo d x := by
  have := roundTo_mono (d := d) h
  rwa [roundTo_zero] at this

theorem pos_of_roundTo_pos {d : ℕ} {x : ℚ} (h : 0 < roundTo d x) : 0 < x := by
  by_contra hx
  push_neg at hx
  have : roundTo d x ≤ 0 := by
    have := roundTo_mono (d := d) hx
    rwa [roundTo_zero] at this
  linarith

/-- A rational lying on the `10^-d` grid. -/
def DRounded (d : ℕ) (x : ℚ) : Prop := ∃ n : ℤ, x = (n : ℚ) / 10 ^ d

theorem dRounded_roundTo (d : ℕ) (x : ℚ) : DRounded d (roundTo d x) :=
  ⟨round (x * 10 ^ d), rfl⟩

theorem dRounded_zero (d : ℕ) : DRounded d 0 := ⟨0, by simp⟩

theorem roundTo_eq_self {d : ℕ} {x : ℚ} (h : DRounded d x) :
    roundTo d x = x := by
  obtain ⟨n, rfl⟩ := h
  unfold roundTo
  have hp : (10 : ℚ) ^ d ≠ 0 := by positivity
  rw [div_mul_cancel₀ _ hp, round_intCast]

theorem roundTo_le_of_le_dRounded {d : ℕ} {x y : ℚ} (hy : DRounded d y)
    (h : x ≤ y) : roundTo d x ≤ y := by
  calc roundTo d x ≤ roundTo d y := roundTo_mono h
    _ = y := roundTo_eq_self hy

/-! ### Lemmas about `minList` -/

theorem foldl_min_le_init (x : ℤ) (xs : List ℤ) : xs.foldl min x ≤ x := by
  induction xs generalizing x with
  | nil => simp
  | cons y ys ih =>
    simp only [List.foldl_cons]
    exact le_trans (ih (min x y)) (min_le_left x y)

theorem foldl_min_le_mem {a : ℤ} {xs : List ℤ} (h : a ∈ xs) :
    ∀ x, xs.foldl min x ≤ a := by
  induction xs with
  | nil => cases h
  | cons y ys ih =>
    intro x
    simp only [List.foldl_cons]
    rcases List.mem_cons.mp h with rfl | h2
    · exact le_trans (foldl_min_le_init _ ys) (min_le_right x a)
    · exact ih h2 (min x y)

theorem minList_le_of_mem {a : ℤ} {l : List ℤ} (h : a ∈ l) : minList l ≤ a := by
  cases l with
  | nil => cases h
  | cons x xs =>
    rcases List.mem_cons.mp h with rfl | hmem
    · exact foldl_min_le_init a xs
    · exact foldl_min_le_mem hmem x

theorem foldl_min_map_mono {α : Type} {f g : α → ℤ} (l : List α) (x y : ℤ)
    (hxy : x ≤ y) (h : ∀ a ∈ l, f a ≤ g a) :
    (l.map f).foldl min x ≤ (l.map g).foldl min y := by
  induction l generalizing x y with
  | nil => simpa using hxy
  | cons a as ih =>
    simp only [List.map_cons, List.foldl_cons]
    exact ih (min x (f a)) (min y (g a))
      (min_le_min hxy (h a (List.mem_cons_self a as)))
      (fun b hb => h b (List.mem_cons_of_mem a hb))

theorem minList_map_mono {α : Type} {f g : α → ℤ} {l : List α}
    (h : ∀ a ∈ l, f a ≤ g a) : minList (l.map f) ≤ minList (l.map g) := by
  cases l with
  | nil => simp [minList]
  | cons a as =>
    simp only [List.map_cons, minList]
    exact foldl_min_map_mono as (f a) (g a) (h a (List.mem_cons_self a as))
      (fun b hb => h b (List.mem_cons_of_mem a hb))

/-! ### Lemmas about stock association lists -/

theorem lookup_supd (s : Stock) (k k2 : String) (v : ℚ) :
    List.lookup k2 (supd s k v) =
      if k2 = k then (List.lookup k s).map (fun _ => v)
      else List.lookup k2 s := by
  induction s with
  | nil => simp [supd]
  | cons p ps ih =>
    obtain ⟨a, b⟩ := p
    have hstep : supd ((a, b) :: ps) k v =
        (if a = k then (a, v) else (a, b)) :: supd ps k v := by
      simp [supd]
    rw [hstep]
    by_cases h1 : a = k
    · subst h1
      by_cases h2 : k2 = a
      · subst h2
        simp [List.lookup_cons]
      · simp only [eq_self_iff_true, if_true, List.lookup_cons,
          beq_false_of_ne h2, ih, if_neg h2]
    · simp only [if_neg h1]
      by_cases h2 : k2 = a
      · subst h2
        have h3 : ¬ k2 = k := h1
        simp only [List.lookup_cons_self, if_neg h3]
      · by_cases h3 : k2 = k
        · subst h3
          have h4 : ¬ (k2 : String) = a := h2
          simp only [List.lookup_cons, beq_false_of_ne h2, ih, if_pos rfl,
            beq_false_of_ne (fun h => h1 h.symm)]
        · simp only [List.lookup_cons, beq_false_of_ne h2, ih, if_neg h3]

theorem isSome_lookup_supd (s : Stock) (k k2 : String) (v : ℚ) :
    (List.lookup k2 (supd s k v)).isSome = (List.lookup k2 s).isSome := by
  rw [lookup_supd]
  by_cases h : k2 = k
  · subst h
    cases List.lookup k2 s <;> simp
  · simp [h]

theorem sget_supd_of_isSome {s : Stock} {k : String} (v : ℚ)
    (h : (List.lookup k s).isSome) : sget (supd s k v) k = v := by
  unfold sget
  rw [lookup_supd, if_pos rfl]
  cases hl : List.lookup k s with
  | none => rw [hl] at h; simp at h
  | some w => simp

theorem sget_supd_ne {s : Stock} {k k2 : String} (v : ℚ) (h : k2 ≠ k) :
    sget (supd s k v) k2 = sget s k2 := by
  unfold sget
  rw [lookup_supd, if_neg h]

theorem lookup_map_roundTo (d : ℕ) (stock : Stock) (k : String) :
    List.lookup k (stock.map fun p => (p.1, roundTo d p.2)) =
      (List.lookup k stock).map (roundTo d) := by
  induction stock with
  | nil => simp
  | cons p ps ih =>
    obtain ⟨a, b⟩ := p
    by_cases h : k = a
    · subst h
      simp [List.lookup_cons]
    · simp [List.lookup_cons, beq_false_of_ne h, ih]

/-! ### The depletion invariant: the allocated pool stays below the initial
pool, on the same keys, with values on the rounding grid -/

/-- The allocated pool has the same keys as the initial pool, values
pointwise below it and on the `10^-d` grid. -/
def StockDom (d : ℕ) (initialS alloc : Stock) : Prop :=
  (∀ k, (List.lookup k alloc).isSome = (List.lookup k initialS).isSome) ∧
  (∀ k, sget alloc k ≤ sget initialS k) ∧
  (∀ k, DRounded d (sget alloc k))

theorem stockDom_init (d : ℕ) (stock : Stock) :
    StockDom d (stock.map fun p => (p.1, roundTo d p.2))
      (stock.map fun p => (p.1, roundTo d p.2)) := by
  refine ⟨fun k => rfl, fun k => le_refl _, fun k => ?_⟩
  unfold sget
  rw [lookup_map_roundTo]
  cases List.lookup k stock with
  | none => exact dRounded_zero d
  | some w => exact dRounded_roundTo d w

theorem stockDom_depleteRow {d : ℕ} {I A : Stock} {ab : ℤ} {row : FormulaRow}
    (hd : StockDom d I A) (hq : 0 ≤ row.qty * (ab : ℚ)) :
    StockDom d I (depleteRow d ab A row) := by
  obtain ⟨hkeys, hle, hrnd⟩ := hd
  unfold depleteRow
  set rm := preserve_8char_code_str row.rm with hrm
  by_cases hs : (List.lookup rm A).isSome
  · rw [if_pos hs]
    have hreq : 0 ≤ roundTo d (row.qty * (ab : ℚ)) := roundTo_nonneg hq
    refine ⟨fun k => (isSome_lookup_supd A rm k _).trans (hkeys k),
      fun k => ?_, fun k => ?_⟩
    · by_cases hk : k = rm
      · rw [hk, sget_supd_of_isSome _ hs]
        calc roundTo d (sget A rm - roundTo d (row.qty * (ab : ℚ)))
            ≤ sget A rm := roundTo_le_of_le_dRounded (hrnd rm) (by linarith)
          _ ≤ sget I rm := hle rm
      · rw [sget_supd_ne _ hk]
        exact hle k
    · by_cases hk : k = rm
      · rw [hk, sget_supd_of_isSome _ hs]
        exact dRounded_roundTo d _
      · rw [sget_supd_ne _ hk]
        exact hrnd k
  · rw [if_neg hs]
    exact ⟨hkeys, hle, hrnd⟩

theorem stockDom_foldl_deplete {d : ℕ} {I : Stock} {ab : ℤ}
    (rows : List FormulaRow) (A : Stock) (hd : StockDom d I A)
    (hq : ∀ row ∈ rows, 0 ≤ row.qty * (ab : ℚ)) :
    StockDom d I (rows.foldl (depleteRow d ab) A) := by
  induction rows generalizing A with
  | nil => exact hd
  | cons r rs ih =>
    simp only [List.foldl_cons]
    exact ih _ (stockDom_depleteRow hd (hq r (List.mem_cons_self r rs)))
      (fun row h => hq row (List.mem_cons_of_mem r h))

/-! ### Per-row bounds for the actual pass against the max pass -/

theorem maxRowBatches_nonneg (d : ℕ) (I : Stock) (row : FormulaRow) :
    0 ≤ maxRowBatches d I row := by
  simp only [maxRowBatches]
  split
  · exact le_refl 0
  · next h =>
    push_neg at h
    exact Int.floor_nonneg.mpr (le_of_lt (div_pos h.2 h.1))

theorem ite_pair_fst {c : Prop} [Decidable c] (x : ℤ)
    (y w : List String × List String) :
    (if c then ((x, y) : ℤ × List String × List String) else (x, w)).1 = x := by
  split <;> rfl

theorem autoRow_fst_le_maxRow {d : ℕ} {I A : Stock} {row : FormulaRow}
    (hle : ∀ k, sget A k ≤ sget I k) :
    (autoRow d A row).1 ≤ maxRowBatches d I row := by
  unfold autoRow
  set rm := preserve_8char_code_str row.rm
  set req := roundTo d row.qty with hreq
  set aA := sget A rm
  set aI := sget I rm with haI
  have hAI : aA ≤ aI := hle rm
  by_cases h1 : req ≤ 0
  · rw [if_pos h1]
    exact maxRowBatches_nonneg d I row
  · rw [if_neg h1]
    by_cases h2 : aA ≤ 0
    · rw [if_pos h2]
      exact maxRowBatches_nonneg d I row
    · rw [if_neg h2]
      push_neg at h1 h2
      have hIpos : 0 < aI := lt_of_lt_of_le h2 hAI
      rw [ite_pair_fst]
      unfold maxRowBatches
      rw [if_neg (by push_neg; exact ⟨h1, hIpos⟩)]
      exact Int.floor_le_floor (by gcongr)

theorem expRow_fst_le_maxRow {d : ℕ} {I A : Stock} {eb : ℤ} {row : FormulaRow}
    (hle : ∀ k, sget A k ≤ sget I k) (heb : 1 ≤ eb) :
    (expRow d A eb row).1 ≤ maxRowBatches d I row := by
  unfold expRow
  set rm := preserve_8char_code_str row.rm
  set req := roundTo d row.qty with hreq
  set aA := sget A rm
  set aI := sget I rm with haI
  have hAI : aA ≤ aI := hle rm
  by_cases h1 : req * (eb : ℚ) ≤ 0
  · rw [if_pos h1]
    exact maxRowBatches_nonneg d I row
  · rw [if_neg h1]
    push_neg at h1
    have hebq : (0 : ℚ) < (eb : ℚ) := by exact_mod_cast lt_of_lt_of_le zero_lt_one heb
    have hreqpos : 0 < req := by nlinarith
    by_cases h2 : aA ≤ 0
    · rw [if_pos h2]
      exact maxRowBatches_nonneg d I row
    · rw [if_neg h2]
      push_neg at h2
      have hIpos : 0 < aI := lt_of_lt_of_le h2 hAI
      have hmaxeq : maxRowBatches d I row = ⌊aI / req⌋ := by
        unfold maxRowBatches
        rw [if_neg (by push_neg; exact ⟨hreqpos, hIpos⟩)]
      by_cases h3 : req * (eb : ℚ) ≤ aA
      · rw [if_pos h3, hmaxeq]
        refine Int.le_floor.mpr ?_
        rw [le_div_iff₀ hreqpos, mul_comm]
        exact le_trans h3 hAI
      · rw [if_neg h3, hmaxeq, ite_pair_fst]
        exact Int.floor_le_floor (by gcongr)

theorem autoRow_fst_qty_pos {d : ℕ} {A : Stock} {row : FormulaRow}
    (h : 1 ≤ (autoRow d A row).1) : 0 < row.qty := by
  unfold autoRow at h
  set req := roundTo d row.qty with hreq
  by_cases h1 : req ≤ 0
  · rw [if_pos h1] at h
    norm_num at h
  · push_neg at h1
    exact pos_of_roundTo_pos h1

theorem expRow_fst_qty_pos {d : ℕ} {A : Stock} {eb : ℤ} {row : FormulaRow}
    (heb : 1 ≤ eb) (h : 1 ≤ (expRow d A eb row).1) : 0 < row.qty := by
  unfold expRow at h
  set req := roundTo d row.qty with hreq
  by_cases h1 : req * (eb : ℚ) ≤ 0
  · rw [if_pos h1] at h
    norm_num at h
  · push_neg at h1
    have hebq : (0 : ℚ) < (eb : ℚ) := by exact_mod_cast lt_of_lt_of_le zero_lt_one heb
    have : 0 < req := by nlinarith
    exact pos_of_roundTo_pos this

/-! ### Per-FG and per-run facts -/

theorem processFG_fg (d : ℕ) (I A : Stock) (ec : ℚ) (fg : String)
    (rows : List FormulaRow) : (processFG d I A ec fg rows).1.fg = fg := by
  simp only [processFG]

theorem processFG_expected (d : ℕ) (I A : Stock) (ec : ℚ) (fg : String)
    (rows : List FormulaRow) : (processFG d I A ec fg rows).1.expected = ec := by
  simp only [processFG]

theorem processFG_maxCapacity (d : ℕ) (I A : Stock) (ec : ℚ) (fg : String)
    (rows : List FormulaRow) :
    (processFG d I A ec fg rows).1.maxCapacity =
      minList (rows.map (maxRowBatches d I)) * 25 := by
  simp only [processFG]

theorem processFG_actualCapacity (d : ℕ) (I A : Stock) (ec : ℚ) (fg : String)
    (rows : List FormulaRow) :
    (processFG d I A ec fg rows).1.actualCapacity =
      (processFG d I A ec fg rows).1.batches * 25 := by
  simp only [processFG]

theorem processFG_status (d : ℕ) (I A : Stock) (ec : ℚ) (fg : String)
    (rows : List FormulaRow) :
    (processFG d I A ec fg rows).1.status =
      (if 25 ≤ (processFG d I A ec fg rows).1.actualCapacity
       then "✅ Ready" else "❌ Shortage") := by
  simp only [processFG]

theorem processFG_batches (d : ℕ) (I A : Stock) (ec : ℚ) (fg : String)
    (rows : List FormulaRow) :
    (processFG d I A ec fg rows).1.batches =
      (if 0 < ec then
        min (max 1 ⌊ec / 25⌋)
          (minList (rows.map fun r => (expRow d A (max 1 ⌊ec / 25⌋) r).1))
       else minList (rows.map fun r => (autoRow d A r).1)) := by
  by_cases hec : 0 < ec <;> simp [processFG, hec]

theorem processFG_cap_le_max {d : ℕ} {I A : Stock} (ec : ℚ) (fg : String)
    (rows : List FormulaRow) (hle : ∀ k, sget A k ≤ sget I k) :
    (processFG d I A ec fg rows).1.actualCapacity ≤
      (processFG d I A ec fg rows).1.maxCapacity := by
  rw [processFG_actualCapacity, processFG_maxCapacity, processFG_batches]
  have hb : (if 0 < ec then
      min (max 1 ⌊ec / 25⌋)
        (minList (rows.map fun r => (expRow d A (max 1 ⌊ec / 25⌋) r).1))
     else minList (rows.map fun r => (autoRow d A r).1)) ≤
      minList (rows.map (maxRowBatches d I)) := by
    split
    · exact le_trans (min_le_right _ _)
        (minList_map_mono fun r _ => expRow_fst_le_maxRow hle (le_max_left 1 _))
    · exact minList_map_mono fun r _ => autoRow_fst_le_maxRow hle
  nlinarith [hb]

theorem processFG_stockDom {d : ℕ} {I A : Stock} (ec : ℚ) (fg : String)
    (rows : List FormulaRow) (hd : StockDom d I A) :
    StockDom d I (processFG d I A ec fg rows).2 := by
  have hsnd : (processFG d I A ec fg rows).2 =
      (if 0 < (processFG d I A ec fg rows).1.batches ∧
          (processFG d I A ec fg rows).1.status = "✅ Ready"
       then rows.foldl (depleteRow d (processFG d I A ec fg rows).1.batches) A
       else A) := by
    simp only [processFG]
  rw [hsnd]
  split
  · next hpos =>
    obtain ⟨hab, _⟩ := hpos
    refine stockDom_foldl_deplete rows A hd ?_
    intro row hrow
    set ab := (processFG d I A ec fg rows).1.batches with habdef
    have habq : (0 : ℚ) ≤ (ab : ℚ) := by exact_mod_cast le_of_lt hab
    have hqty : 0 < row.qty := by
      rw [processFG_batches] at habdef
      by_cases hec : 0 < ec
      · rw [if_pos hec] at habdef
        have h1 : ab ≤ (expRow d A (max 1 ⌊ec / 25⌋) row).1 := by
          rw [habdef]
          exact le_trans (min_le_right _ _)
            (minList_le_of_mem (List.mem_map_of_mem _ hrow))
        exact expRow_fst_qty_pos (le_max_left 1 _) (le_trans hab h1)
      · rw [if_neg hec] at habdef
        have h1 : ab ≤ (autoRow d A row).1 := by
          rw [habdef]
          exact minList_le_of_mem (List.mem_map_of_mem _ hrow)
        exact autoRow_fst_qty_pos (le_trans hab h1)
    exact mul_nonneg (le_of_lt hqty) habq
  · exact hd

theorem allocateGo_stockDom {d : ℕ} {formulas : List FormulaRow}
    {ec : List (String × ℚ)} {I : Stock} :
    ∀ (fifo : List String) (A : Stock), StockDom d I A →
      StockDom d I (allocateGo d formulas ec I A fifo).2 := by
  intro fifo
  induction fifo with
  | nil => intro A hd; exact hd
  | cons fg rest ih =>
    intro A hd
    show StockDom d I (allocateGo d formulas ec I A (fg :: rest)).2
    rw [allocateGo]
    split
    · exact ih A hd
    · exact ih _ (processFG_stockDom _ _ _ hd)

theorem allocateGo_mem_cap {d : ℕ} {formulas : List FormulaRow}
    {ec : List (String × ℚ)} {I : Stock} :
    ∀ (fifo : List String) (A : Stock), StockDom d I A →
      ∀ r ∈ (allocateGo d formulas ec I A fifo).1,
        ∃ A0 rows, StockDom d I A0 ∧
          r = (processFG d I A0 (sget ec r.fg) r.fg rows).1 := by
  intro fifo
  induction fifo with
  | nil => intro A hd r hr; cases hr
  | cons fg rest ih =>
    intro A hd r hr
    rw [allocateGo] at hr
    by_cases hrows : (formulas.filter fun row => row.fg == fg).isEmpty
    · rw [if_pos hrows] at hr
      exact ih A hd r hr
    · rw [if_neg hrows] at hr
      rcases List.mem_cons.mp hr with heq | htail
      · refine ⟨A, formulas.filter fun row => row.fg == fg, hd, ?_⟩
        have hfg : r.fg = fg := by rw [heq, processFG_fg]
        rw [hfg]
        exact heq
      · exact ih _ (processFG_stockDom _ _ _ hd) r htail

theorem maxRowBatches_eq_spec (d : ℕ) (I : Stock) (row : FormulaRow) :
    maxRowBatches d I row = maxRowBatchesSpec d I row := by
  simp only [maxRowBatches, maxRowBatchesSpec]
  by_cases h : roundTo d row.qty ≤ 0 ∨ sget I (preserve_8char_code_str row.rm) ≤ 0
  · rw [if_pos h,
      if_neg (fun hc => by rcases h with h | h <;> linarith [hc.1, hc.2])]
  · push_neg at h
    rw [if_neg (fun hc => by rcases hc with hc | hc <;> linarith [h.1, h.2]),
      if_pos h]

theorem maxCapacityListSpec_cons (d : ℕ) (formulas : List FormulaRow)
    (I : Stock) (fg : String) (rest : List String) :
    maxCapacityListSpec d formulas I (fg :: rest) =
      if (formulas.filter fun r => r.fg == fg).isEmpty then
        maxCapacityListSpec d formulas I rest
      else
        (fg, minList ((formulas.filter fun r => r.fg == fg).map
          (maxRowBatchesSpec d I)) * 25) ::
          maxCapacityListSpec d formulas I rest := by
  by_cases h : (formulas.filter fun r => r.fg == fg).isEmpty
  · simp only [maxCapacityListSpec, List.filterMap_cons, if_pos h]
  · simp only [maxCapacityListSpec, List.filterMap_cons, if_neg h]

theorem allocateGo_maxCap_map {d : ℕ} {formulas : List FormulaRow}
    {ec : List (String × ℚ)} {I : Stock} :
    ∀ (fifo : List String) (A : Stock),
      ((allocateGo d formulas ec I A fifo).1.map
        fun r => (r.fg, r.maxCapacity)) =
        maxCapacityListSpec d formulas I fifo := by
  intro fifo
  induction fifo with
  | nil => intro A; rfl
  | cons fg rest ih =>
    intro A
    rw [allocateGo, maxCapacityListSpec_cons]
    by_cases hrows : (formulas.filter fun r => r.fg == fg).isEmpty
    · rw [if_pos hrows, if_pos hrows]
      exact ih A
    · rw [if_neg hrows, if_neg hrows]
      simp only [List.map_cons, processFG_fg, processFG_maxCapacity]
      have hmaps : (formulas.filter fun r => r.fg == fg).map
          (maxRowBatches d I) =
          (formulas.filter fun r => r.fg == fg).map (maxRowBatchesSpec d I) :=
        List.map_congr_left fun r _ => maxRowBatches_eq_spec d I r
      rw [hmaps, ih]

theorem expRow_fst_eq_spec (d : ℕ) (A : Stock) (eb : ℤ) (row : FormulaRow) :
    (expRow d A eb row).1 = supportedBatchesSpec d A eb row := by
  simp only [expRow, supportedBatchesSpec]
  by_cases h1 : roundTo d row.qty * (eb : ℚ) ≤ 0
  · rw [if_pos h1, if_pos h1]
  · rw [if_neg h1, if_neg h1]
    by_cases h2 : sget A (preserve_8char_code_str row.rm) ≤ 0
    · rw [if_pos h2, if_pos h2]
    · rw [if_neg h2, if_neg h2]
      by_cases h3 : roundTo d row.qty * (eb : ℚ) ≤
          sget A (preserve_8char_code_str row.rm)
      · rw [if_pos h3, if_pos h3]
      · rw [if_neg h3, if_neg h3, ite_pair_fst]

/-- C2: for every FG in the FIFO order, the reported max capacity is computed
exclusively from the initial (pre-run) stock snapshot — per formula row
`floor(initial[rm] / qty_per_batch)` when positive on both sides else 0,
minimum over rows, times 25 — and is therefore unchanged by the depletion
performed for earlier FGs: the (FG, maxCapacity) sequence of a run is the
same function of the formulas and the rounded initial snapshot for every
allocated pool the run could be started with. -/
theorem C2_maxCapacity_from_initial_only (d : ℕ) (fifo : List String)
    (formulas : List FormulaRow) (stock : Stock) (ec : List (String × ℚ)) :
    (((allocate d fifo formulas stock ec).1.map
        fun r => (r.fg, r.maxCapacity)) =
      maxCapacityListSpec d formulas
        (stock.map fun p => (p.1, roundTo d p.2)) fifo) ∧
    ∀ A : Stock,
      ((allocateGo d formulas ec (stock.map fun p => (p.1, roundTo d p.2))
          A fifo).1.map fun r => (r.fg, r.maxCapacity)) =
        maxCapacityListSpec d formulas
          (stock.map fun p => (p.1, roundTo d p.2)) fifo := by
  constructor
  · unfold allocate
    exact allocateGo_maxCap_map fifo _
  · intro A
    exact allocateGo_maxCap_map fifo A

/-- C3: every result emitted by the allocation engine carries the literal
status string "✅ Ready" exactly when its actual capacity is at least 25 kg
(equivalently, at least one batch), and the literal "❌ Shortage" exactly
otherwise. -/
theorem C3_status_glyphs (d : ℕ) (fifo : List String)
    (formulas : List FormulaRow) (stock : Stock) (ec : List (String × ℚ)) :
    ∀ r ∈ (allocate d fifo formulas stock ec).1,
      (r.status = "✅ Ready" ↔ 25 ≤ r.actualCapacity) ∧
      (r.status = "❌ Shortage" ↔ r.actualCapacity < 25) ∧
      (25 ≤ r.actualCapacity ↔ 1 ≤ r.batches) := by
  intro r hr
  obtain ⟨A0, rows, hd0, heq⟩ :=
    allocateGo_mem_cap fifo _ (stockDom_init d stock) r hr
  have hcap : r.actualCapacity = r.batches * 25 := by
    rw [heq, processFG_actualCapacity]
  have hstat : r.status = (if 25 ≤ r.actualCapacity
      then "✅ Ready" else "❌ Shortage") := by
    rw [heq, processFG_status]
  by_cases h : 25 ≤ r.actualCapacity
  · rw [hstat, if_pos h]
    refine ⟨iff_of_true rfl h, iff_of_false (by decide) (not_lt.mpr h), ?_⟩
    rw [hcap] at h ⊢
    constructor
    · intro h2
      omega
    · intro h2
      omega
  · rw [hstat, if_neg h]
    refine ⟨iff_of_false (by decide) h, iff_of_true rfl (not_le.mp h), ?_⟩
    rw [hcap] at h ⊢
    constructor
    · intro h2
      omega
    · intro h2
      omega

/-- C10: in every allocation run, in both modes, each emitted result
satisfies actual capacity ≤ max capacity (with actual capacity = 25 × the
batch count), because depletion only ever decreases allocated-pool entries,
so the allocated pool stays pointwise below the initial snapshot for the
whole run — witnessed by the final pool being below the rounded snapshot. -/
theorem C10_actual_le_max (d : ℕ) (fifo : List String)
    (formulas : List FormulaRow) (stock : Stock) (ec : List (String × ℚ)) :
    (∀ r ∈ (allocate d fifo formulas stock ec).1,
       r.actualCapacity ≤ r.maxCapacity ∧
       r.actualCapacity = r.batches * 25) ∧
    ∀ k, sget (allocate d fifo formulas stock ec).2 k ≤
       sget (stock.map fun p => (p.1, roundTo d p.2)) k := by
  constructor
  · intro r hr
    obtain ⟨A0, rows, hd0, heq⟩ :=
      allocateGo_mem_cap fifo _ (stockDom_init d stock) r hr
    constructor
    · rw [heq]
      exact processFG_cap_le_max _ _ _ hd0.2.1
    · rw [heq, processFG_actualCapacity]
  · exact (allocateGo_stockDom fifo _ (stockDom_init d stock)).2.1

/-! ### Evaluation helpers for concrete runs -/

theorem roundTo_exact {d : ℕ} {x : ℚ} {n : ℤ} (h : x * 10 ^ d = (n : ℚ)) :
    roundTo d x = x := by
  unfold roundTo
  rw [h, round_intCast, div_eq_iff (by positivity : (10 : ℚ) ^ d ≠ 0)]
  exact h.symm

theorem roundTo_30_3 : roundTo 3 (30 : ℚ) = 30 :=
  roundTo_exact (n := 30000) (by norm_num)

theorem roundTo_50_3 : roundTo 3 (50 : ℚ) = 50 :=
  roundTo_exact (n := 50000) (by norm_num)

theorem roundTo_10_3 : roundTo 3 (10 : ℚ) = 10 :=
  roundTo_exact (n := 10000) (by norm_num)

theorem roundTo_25_3 : roundTo 3 (25 : ℚ) = 25 :=
  roundTo_exact (n := 25000) (by norm_num)

theorem roundTo_100_3 : roundTo 3 (100 : ℚ) = 100 :=
  roundTo_exact (n := 100000) (by norm_num)

theorem roundTo_75_3 : roundTo 3 (75 : ℚ) = 75 :=
  roundTo_exact (n := 75000) (by norm_num)

theorem floor_30_30 : ⌊(30 : ℚ) / 30⌋ = 1 := by norm_num

theorem floor_100_25 : ⌊(100 : ℚ) / 25⌋ = 4 := by norm_num [Int.floor_eq_iff]

theorem floor_40_25 : ⌊(40 : ℚ) / 25⌋ = 1 := by norm_num [Int.floor_eq_iff]

theorem round_30000 : round ((30 : ℚ) * 10 ^ 3) = 30000 := by
  norm_num [round_eq, Int.floor_eq_iff]

theorem fmt_30_3 : fmtFixed 3 (30 : ℚ) = "30.000" := by
  unfold fmtFixed
  rw [round_30000]
  rfl

theorem fmt_0_3 : fmtFixed 3 (0 : ℚ) = "0.000" := by
  unfold fmtFixed
  rw [show round ((0 : ℚ) * 10 ^ 3) = 0 by norm_num]
  rfl

theorem fmt_10_3 : fmtFixed 3 (10 : ℚ) = "10.000" := by
  unfold fmtFixed
  rw [show round ((10 : ℚ) * 10 ^ 3) = 10000 by norm_num [round_eq, Int.floor_eq_iff]]
  rfl

theorem p8s_RMX : preserve_8char_code_str "RM_X0000" = "RM_X0000" := by decide

theorem p8s_RMY : preserve_8char_code_str "RM_Y0000" = "RM_Y0000" := by decide

theorem p8s_RMZ : preserve_8char_code_str "RM_Z0000" = "RM_Z0000" := by decide

theorem p8s_RMM : preserve_8char_code_str "RM_M0000" = "RM_M0000" := by decide

/-- Formula table of the FIFO-significance scenario: two FGs, both needing
30 kg of RM_X0000 per batch. -/
def fifoDemoFormulas : List FormulaRow :=
  [⟨"FG1", "RM_X0000", 30⟩, ⟨"FG2", "RM_X0000", 30⟩]

/-- Stock of the FIFO-significance scenario: 30 kg of RM_X0000. -/
def fifoDemoStock : Stock := [("RM_X0000", 30)]

/-- C1: FIFO order is semantically significant.  With order [FG1, FG2],
both formulas needing 30 kg of RM_X0000 per batch and stock 30 kg, FG1 gets
exactly 1 batch (25 kg actual capacity), the allocated pool's RM_X0000 is
depleted to 0, and FG2 gets 0 batches with status "❌ Shortage" and a
shortage line citing RM_X0000; the reversed order gives the batch to FG2
and the shortage to FG1, on the same stock. -/
theorem C1_fifo_order_significant :
    allocate 3 ["FG1", "FG2"] fifoDemoFormulas fifoDemoStock [] =
      ([⟨"FG1", 0, 25, 25, "✅ Ready", [], 1, []⟩,
        ⟨"FG2", 0, 25, 0, "❌ Shortage", ["RM_X0000"], 0,
          ["RM_X0000: Required 30.000 Kg per batch, Available 0.0000 Kg"]⟩],
       [("RM_X0000", 0)]) ∧
    allocate 3 ["FG2", "FG1"] fifoDemoFormulas fifoDemoStock [] =
      ([⟨"FG2", 0, 25, 25, "✅ Ready", [], 1, []⟩,
        ⟨"FG1", 0, 25, 0, "❌ Shortage", ["RM_X0000"], 0,
          ["RM_X0000: Required 30.000 Kg per batch, Available 0.0000 Kg"]⟩],
       [("RM_X0000", 0)]) := by
  constructor <;>
  · simp [allocate, allocateGo, processFG, maxRowBatches, autoRow, depleteRow,
      minList, sget, supd, fifoDemoStock, fifoDemoFormulas, p8s_RMX,
      roundTo_30_3, floor_30_30, roundTo_zero, fmt_30_3]
    norm_num [roundTo_30_3, roundTo_zero, floor_30_30, fmt_30_3, fmt_0_3]

/-- Formula table of the expected-capacity scenario: one FG needing 25 kg
of RM_Y0000 per batch. -/
def expDemoFormulas : List FormulaRow := [⟨"FG4", "RM_Y0000", 25⟩]

/-- Stock of the expected-capacity scenario: 100 kg of RM_Y0000. -/
def expDemoStock : Stock := [("RM_Y0000", 100)]

/-- C4: in expected-capacity mode the target batch count is
`max(1, floor(expectedCapacity / 25))` and the emitted batch count is the
minimum of this target and the per-RM supported-batch counts; an expected
capacity of 40 kg yields a target of exactly 1 batch, not 2 — checked on a
run with ample stock, where 2 batches would have been feasible
(max capacity 100 kg) yet exactly 1 batch (25 kg) is allocated. -/
theorem C4_expected_capacity_clamp :
    (∀ (d : ℕ) (I A : Stock) (ec : ℚ) (fg : String) (rows : List FormulaRow),
      0 < ec →
      (processFG d I A ec fg rows).1.batches =
        min (max 1 ⌊ec / 25⌋)
          (minList (rows.map (supportedBatchesSpec d A (max 1 ⌊ec / 25⌋))))) ∧
    max 1 ⌊(40 : ℚ) / 25⌋ = 1 ∧
    allocate 3 ["FG4"] expDemoFormulas expDemoStock [("FG4", 40)] =
      ([⟨"FG4", 40, 100, 25, "✅ Ready", [], 1, []⟩], [("RM_Y0000", 75)]) := by
  refine ⟨?_, ?_, ?_⟩
  · intro d I A ec fg rows hec
    rw [processFG_batches, if_pos hec]
    congr 1
    congr 1
    exact List.map_congr_left fun r _ => expRow_fst_eq_spec d A _ r
  · rw [floor_40_25]
    exact max_self 1
  · simp [allocate, allocateGo, processFG, maxRowBatches, expRow, depleteRow,
      minList, sget, supd, expDemoStock, expDemoFormulas, p8s_RMY,
      roundTo_25_3, roundTo_100_3, floor_40_25, floor_100_25]
    norm_num [roundTo_25_3, roundTo_100_3, roundTo_75_3, floor_40_25,
      floor_100_25]

/-- Formula table with an invalid (zero) per-batch requirement. -/
def zeroDemoFormulas : List FormulaRow := [⟨"FGZ", "RM_Z0000", 0⟩]

/-- Stock for the invalid-requirement scenario. -/
def zeroDemoStock : Stock := [("RM_Z0000", 50)]

/-- Formula table whose RM has no stock entry at all. -/
def missDemoFormulas : List FormulaRow := [⟨"FGM", "RM_M0000", 10⟩]

/-- C5: the engine is total on well-typed input — a row whose rounded
requirement is zero or negative contributes 0 supported batches plus an
"Invalid requirement" shortage line in both auto and expected mode rather
than raising, and an RM absent from the stock dictionary reads as
availability 0; an end-to-end run on a zero-requirement row and a run on an
RM with no stock entry both complete with 0 batches and explanatory
shortage lines. -/
theorem C5_total_no_division_error :
    (∀ (d : ℕ) (alloc : Stock) (row : FormulaRow),
      roundTo d row.qty ≤ 0 →
      autoRow d alloc row =
        (0, [], [preserve_8char_code_str row.rm ++ ": Invalid requirement (" ++
          fmtFixed d (roundTo d row.qty) ++ " Kg)"])) ∧
    (∀ (d : ℕ) (alloc : Stock) (eb : ℤ) (row : FormulaRow),
      1 ≤ eb → roundTo d row.qty ≤ 0 →
      expRow d alloc eb row =
        (0, [], [preserve_8char_code_str row.rm ++ ": Invalid requirement (" ++
          fmtFixed d (roundTo d row.qty) ++ " Kg per batch)"])) ∧
    (∀ (s : Stock) (k : String), List.lookup k s = none → sget s k = 0) ∧
    allocate 3 ["FGZ"] zeroDemoFormulas zeroDemoStock [] =
      ([⟨"FGZ", 0, 0, 0, "❌ Shortage", [], 0,
        ["RM_Z0000: Invalid requirement (0.000 Kg)"]⟩], [("RM_Z0000", 50)]) ∧
    allocate 3 ["FGM"] missDemoFormulas [] [] =
      ([⟨"FGM", 0, 0, 0, "❌ Shortage", ["RM_M0000"], 0,
        ["RM_M0000: Required 10.000 Kg per batch, Available 0.0000 Kg"]⟩],
       []) := by
  refine ⟨?_, ?_, ?_, ?_, ?_⟩
  · intro d alloc row h
    simp only [autoRow, if_pos h]
  · intro d alloc eb row heb h
    have hebq : (0 : ℚ) ≤ (eb : ℚ) := by
      exact_mod_cast le_trans zero_le_one heb
    have htq : roundTo d row.qty * (eb : ℚ) ≤ 0 := by nlinarith
    simp only [expRow, if_pos htq]
  · intro s k h
    unfold sget
    rw [h]
    rfl
  · simp [allocate, allocateGo, processFG, maxRowBatches, autoRow, depleteRow,
      minList, sget, supd, zeroDemoStock, zeroDemoFormulas, p8s_RMZ,
      roundTo_zero, roundTo_50_3, fmt_0_3]
  · simp [allocate, allocateGo, processFG, maxRowBatches, autoRow, depleteRow,
      minList, sget, supd, missDemoFormulas, p8s_RMM,
      roundTo_10_3, fmt_10_3]
    norm_num [roundTo_10_3, fmt_10_3]

theorem p8s_RMA : preserve_8char_code_str "RM_A0000" = "RM_A0000" := by decide

theorem p8s_RMB : preserve_8char_code_str "RM_B0000" = "RM_B0000" := by decide

theorem p8s_COMP : preserve_8char_code_str "COMP0000" = "COMP0000" := by decide

/-- C6: in the dilution transform each component quantity is
`original_quantity * percentage / 100`; whenever the absolute value of that
raw quantity is below 0.00005 it is forced to exactly 0.0001 before the
final rounding to 4 decimals — in particular quantity 0.001 under a 1%
rule (raw 0.00001) yields component quantity exactly 0.0001, also through
the whole transform. -/
theorem C6_dilution_floor :
    (∀ q p : ℚ, absQ (q * (p / 100)) < 0.00005 → componentQty q p = 0.0001) ∧
    (∀ q p : ℚ, ¬ absQ (q * (p / 100)) < 0.00005 →
      componentQty q p = roundTo 4 (q * (p / 100))) ∧
    componentQty 0.001 1 = 0.0001 ∧
    apply_dilution_rules [⟨"RM_A0000", "COMP0000", 1⟩]
        [⟨"FG1", "RM_A0000", 0.001⟩] =
      [⟨"FG1", "COMP0000", 0.0001⟩] := by
  have h1 : ∀ q p : ℚ, absQ (q * (p / 100)) < 0.00005 →
      componentQty q p = 0.0001 := by
    intro q p h
    simp only [componentQty, if_pos h]
    exact roundTo_exact (n := 1) (by norm_num)
  have hc : componentQty 0.001 1 = 0.0001 := h1 _ _ (by norm_num [absQ])
  refine ⟨h1, ?_, hc, ?_⟩
  · intro q p h
    simp only [componentQty, if_neg h]
  · simp [apply_dilution_rules, groupSum, hc, p8s_RMA, p8s_COMP,
      List.dedup_cons_of_not_mem, List.insertionSort, List.orderedInsert]

theorem groupSum_keys (rows : List FormulaRow) :
    (groupSum rows).map (fun r => (r.fg, r.rm)) =
      ((rows.map fun r => (r.fg, r.rm)).dedup).insertionSort keyLe := by
  simp only [groupSum, List.map_map]
  have h : ∀ k : String × String,
      ((fun r : FormulaRow => (r.fg, r.rm)) ∘
        (fun k : String × String => (⟨k.1, k.2,
          ((rows.filter fun r => r.fg == k.1 && r.rm == k.2).map
            (fun r => r.qty)).sum⟩ : FormulaRow))) k = k := fun k => rfl
  rw [List.map_congr_left fun k _ => h k, List.map_id']

/-- C7: the replacement transform builds a last-wins old→new map, renames
each formula row's RM code through it (pass-through when unmapped), then
merges duplicate (FG, RM) rows by summing, so the output has at most one
row per (FG, RM); [(FG1,RM_A,10),(FG1,RM_B,5)] under RM_A→RM_B yields
exactly [(FG1,RM_B,15)], and the transform is the identity when either
the rule table or the formula table is empty. -/
theorem C7_replacement_merge :
    (∀ f : List FormulaRow, apply_rm_replacement [] f = f) ∧
    (∀ r : List ReplacementRule, apply_rm_replacement r [] = []) ∧
    (∀ (rules : List ReplacementRule) (r : ReplacementRule) (k : String),
      lookupLast (rules ++ [r]) k =
        if preserve_8char_code_str r.old == k
        then some (preserve_8char_code_str r.new) else lookupLast rules k) ∧
    apply_rm_replacement [⟨"RM_A0000", "RM_B0000"⟩]
        [⟨"FG1", "RM_A0000", 10⟩, ⟨"FG1", "RM_B0000", 5⟩] =
      [⟨"FG1", "RM_B0000", 15⟩] ∧
    (∀ (rules : List ReplacementRule) (formulas : List FormulaRow),
      rules ≠ [] → formulas ≠ [] →
      ((apply_rm_replacement rules formulas).map
        fun r => (r.fg, r.rm)).Nodup) := by
  refine ⟨?_, ?_, ?_, ?_, ?_⟩
  · intro f
    simp [apply_rm_replacement]
  · intro r
    simp [apply_rm_replacement]
  · intro rules r k
    simp only [lookupLast, List.foldl_append, List.foldl_cons, List.foldl_nil]
  · simp [apply_rm_replacement, lookupLast, groupSum, p8s_RMA, p8s_RMB,
      List.dedup_cons_of_not_mem, List.dedup_cons_of_mem,
      List.insertionSort, List.orderedInsert]
    norm_num
  · intro rules formulas hr hf
    have hcond : ¬ (rules.isEmpty || formulas.isEmpty) = true := by
      simp [List.isEmpty_iff, hr, hf]
    unfold apply_rm_replacement
    rw [if_neg hcond, groupSum_keys]
    exact ((List.perm_insertionSort keyLe _).nodup_iff).mpr
      (List.nodup_dedup _)

/-! ### String lemmas for the code normalizer -/

theorem mk_append (l1 l2 : List Char) :
    String.mk l1 ++ String.mk l2 = String.mk (l1 ++ l2) := rfl

theorem mk_nil_append (s : String) : String.mk [] ++ s = s := by
  cases s
  rfl

theorem append_mk_nil (s : String) : s ++ String.mk [] = s := by
  cases s with
  | mk l =>
    rw [mk_append, List.append_nil]

theorem zfill_data (n : ℕ) (s : String) :
    (zfill n s).data = List.replicate (n - s.data.length) '0' ++ s.data := by
  cases s
  rfl

theorem ljustZero_data (n : ℕ) (s : String) :
    (ljustZero n s).data = s.data ++ List.replicate (n - s.data.length) '0' := by
  cases s
  rfl

theorem zfill_length (n : ℕ) (s : String) :
    (zfill n s).data.length = max n s.data.length := by
  rw [zfill_data]
  simp only [List.length_append, List.length_replicate]
  omega

theorem zfill_of_le {n : ℕ} {s : String} (h : n ≤ s.data.length) :
    zfill n s = s := by
  unfold zfill
  rw [Nat.sub_eq_zero_of_le h, List.replicate_zero]
  exact mk_nil_append s

theorem isdigitStr_zfill {s : String} (h : isdigitStr s = true) (n : ℕ) :
    isdigitStr (zfill n s) = true := by
  unfold isdigitStr at h ⊢
  simp only [Bool.and_eq_true, Bool.not_eq_true', List.all_eq_true] at h ⊢
  obtain ⟨hne, hall⟩ := h
  constructor
  · rw [zfill_data]
    simp only [List.isEmpty_eq_false_iff_exists_mem] at hne ⊢
    obtain ⟨c, hc⟩ := hne
    exact ⟨c, List.mem_append_right _ hc⟩
  · intro c hc
    rw [zfill_data] at hc
    rcases List.mem_append.mp hc with hrep | hmem
    · rw [(List.mem_replicate.mp hrep).2]
      decide
    · exact hall c hmem

theorem p8s_length_ge (s : String) :
    8 ≤ (preserve_8char_code_str s).data.length := by
  unfold preserve_8char_code_str
  by_cases h1 : isdigitStr (pyStrip s) = true
  · rw [if_pos h1, zfill_length]
    exact le_max_left 8 _
  · rw [if_neg h1]
    by_cases h2 : (pyStrip s).data.length < 8
    · rw [if_pos h2, ljustZero_data]
      simp only [List.length_append, List.length_replicate]
      omega
    · rw [if_neg h2]
      by_cases h3 : 8 < (pyStrip s).data.length
      · rw [if_pos h3]
        simp only [List.length_take]
        omega
      · rw [if_neg h3]
        omega

theorem p8s_isdigit_of_long {s : String}
    (h : 8 < (preserve_8char_code_str s).data.length) :
    isdigitStr (preserve_8char_code_str s) = true := by
  revert h
  unfold preserve_8char_code_str
  by_cases h1 : isdigitStr (pyStrip s) = true
  · rw [if_pos h1]
    intro _
    exact isdigitStr_zfill h1 8
  · rw [if_neg h1]
    by_cases h2 : (pyStrip s).data.length < 8
    · rw [if_pos h2]
      intro h
      rw [ljustZero_data] at h
      simp only [List.length_append, List.length_replicate] at h
      omega
    · rw [if_neg h2]
      by_cases h3 : 8 < (pyStrip s).data.length
      · rw [if_pos h3]
        intro h
        simp only [List.length_take] at h
        omega
      · rw [if_neg h3]
        intro h
        omega

/-- C8: the code normalizer is total over string cells: a missing (NaN)
cell maps to "", and otherwise the trimmed input is zero-padded left to
width 8 when all-digit (a longer all-digit string passes through unchanged,
not truncated), while any other string is right-padded with '0' to width 8
or truncated to its first 8 characters; "7" ↦ "00000007",
"AB1" ↦ "AB100000", "ABCDEFGHI" ↦ "ABCDEFGH". -/
theorem C8_normalizer_rules :
    preserve_8char_code none = "" ∧
    preserve_8char_code_str "7" = "00000007" ∧
    preserve_8char_code_str "AB1" = "AB100000" ∧
    preserve_8char_code_str "ABCDEFGHI" = "ABCDEFGH" ∧
    (∀ s : String, isdigitStr (pyStrip s) = true →
      preserve_8char_code_str s = zfill 8 (pyStrip s)) ∧
    (∀ s : String, isdigitStr (pyStrip s) = true →
      8 ≤ (pyStrip s).data.length →
      preserve_8char_code_str s = pyStrip s) ∧
    (∀ s : String, ¬ isdigitStr (pyStrip s) = true →
      (pyStrip s).data.length ≤ 8 →
      preserve_8char_code_str s = ljustZero 8 (pyStrip s)) ∧
    (∀ s : String, ¬ isdigitStr (pyStrip s) = true →
      8 < (pyStrip s).data.length →
      preserve_8char_code_str s = String.mk ((pyStrip s).data.take 8)) := by
  refine ⟨rfl, by decide, by decide, by decide, ?_, ?_, ?_, ?_⟩
  · intro s h
    unfold preserve_8char_code_str
    rw [if_pos h]
  · intro s h hlen
    unfold preserve_8char_code_str
    rw [if_pos h]
    exact zfill_of_le hlen
  · intro s h hlen
    unfold preserve_8char_code_str
    rw [if_neg h]
    by_cases h2 : (pyStrip s).data.length < 8
    · rw [if_pos h2]
    · rw [if_neg h2, if_neg (by omega)]
      have hlen8 : (8 : ℕ) - (pyStrip s).data.length = 0 := by omega
      unfold ljustZero
      rw [hlen8, List.replicate_zero]
      exact (append_mk_nil _).symm
  · intro s h hlen
    unfold preserve_8char_code_str
    rw [if_neg h, if_neg (by omega), if_pos hlen]

/-- C9 counterexample: the normalizer is not idempotent as claimed — the
10-character input "ABCDEFG HI" truncates to "ABCDEFG " (trailing space),
which renormalizes to "ABCDEFG0". -/
theorem C9_counterexample :
    preserve_8char_code_str (preserve_8char_code_str "ABCDEFG HI") ≠
      preserve_8char_code_str "ABCDEFG HI" := by decide

/-- C9 (amended): the normalizer is idempotent at every input whose
normalized form is unchanged by whitespace trimming — in particular at
every input whose trimmed form has no whitespace among its first 8
characters; the unrestricted claim fails exactly when truncation leaves
trailing whitespace, as at "ABCDEFG HI". -/
theorem C9_idempotent_amended (s : String)
    (h : pyStrip (preserve_8char_code_str s) = preserve_8char_code_str s) :
    preserve_8char_code_str (preserve_8char_code_str s) =
      preserve_8char_code_str s := by
  set y := preserve_8char_code_str s with hy
  have hge : 8 ≤ y.data.length := by
    rw [hy]
    exact p8s_length_ge s
  by_cases hdig : isdigitStr y = true
  · unfold preserve_8char_code_str
    rw [h, if_pos hdig]
    exact zfill_of_le hge
  · have hlen : y.data.length = 8 := by
      have h2 : ¬ 8 < y.data.length := fun hc => by
        refine hdig ?_
        rw [hy] at hc ⊢
        exact p8s_isdigit_of_long hc
      omega
    unfold preserve_8char_code_str
    rw [h, if_neg hdig, if_neg (by omega), if_neg (by omega)]

/-! ### Witness material: concrete instantiations of the quantified
theorems -/

/-- The first result of the demo FIFO run. -/
def fifoR1 : FGResult := ⟨"FG1", 0, 25, 25, "✅ Ready", [], 1, []⟩

/-- The second result of the demo FIFO run. -/
def fifoR2 : FGResult :=
  ⟨"FG2", 0, 25, 0, "❌ Shortage", ["RM_X0000"], 0,
    ["RM_X0000: Required 30.000 Kg per batch, Available 0.0000 Kg"]⟩

theorem fifo_run_eval :
    allocate 3 ["FG1", "FG2"] fifoDemoFormulas fifoDemoStock [] =
      ([fifoR1, fifoR2], [("RM_X0000", 0)]) := by
  simp [allocate, allocateGo, processFG, maxRowBatches, autoRow, depleteRow,
    minList, sget, supd, fifoDemoStock, fifoDemoFormulas, p8s_RMX,
    roundTo_30_3, floor_30_30, roundTo_zero, fmt_30_3, fifoR1, fifoR2]
  norm_num [roundTo_30_3, roundTo_zero, floor_30_30, fmt_30_3, fmt_0_3]

theorem fifoR1_mem :
    fifoR1 ∈ (allocate 3 ["FG1", "FG2"] fifoDemoFormulas fifoDemoStock []).1 := by
  rw [fifo_run_eval]
  exact List.mem_cons_self _ _

theorem C3_witness :
    fifoR1 ∈ (allocate 3 ["FG1", "FG2"] fifoDemoFormulas fifoDemoStock []).1 ∧
    ((fifoR1.status = "✅ Ready" ↔ 25 ≤ fifoR1.actualCapacity) ∧
     (fifoR1.status = "❌ Shortage" ↔ fifoR1.actualCapacity < 25) ∧
     (25 ≤ fifoR1.actualCapacity ↔ 1 ≤ fifoR1.batches)) :=
  ⟨fifoR1_mem,
   C3_status_glyphs 3 ["FG1", "FG2"] fifoDemoFormulas fifoDemoStock []
     fifoR1 fifoR1_mem⟩

theorem C10_witness :
    fifoR1 ∈ (allocate 3 ["FG1", "FG2"] fifoDemoFormulas fifoDemoStock []).1 ∧
    (fifoR1.actualCapacity ≤ fifoR1.maxCapacity ∧
     fifoR1.actualCapacity = fifoR1.batches * 25) :=
  ⟨fifoR1_mem,
   (C10_actual_le_max 3 ["FG1", "FG2"] fifoDemoFormulas fifoDemoStock []).1
     fifoR1 fifoR1_mem⟩

theorem C4_witness :
    (0 : ℚ) < 40 ∧
    (processFG 3 expDemoStock expDemoStock 40 "FG4" expDemoFormulas).1.batches =
      min (max 1 ⌊(40 : ℚ) / 25⌋)
        (minList (expDemoFormulas.map
          (supportedBatchesSpec 3 expDemoStock (max 1 ⌊(40 : ℚ) / 25⌋)))) :=
  ⟨by norm_num,
   C4_expected_capacity_clamp.1 3 expDemoStock expDemoStock 40 "FG4"
     expDemoFormulas (by norm_num)⟩

theorem C5_witness :
    roundTo 3 (0 : ℚ) ≤ 0 ∧
    autoRow 3 zeroDemoStock ⟨"FGZ", "RM_Z0000", 0⟩ =
      (0, [], [preserve_8char_code_str "RM_Z0000" ++ ": Invalid requirement (" ++
        fmtFixed 3 (roundTo 3 (0 : ℚ)) ++ " Kg)"]) ∧
    (1 : ℤ) ≤ 1 ∧
    expRow 3 zeroDemoStock 1 ⟨"FGZ", "RM_Z0000", 0⟩ =
      (0, [], [preserve_8char_code_str "RM_Z0000" ++ ": Invalid requirement (" ++
        fmtFixed 3 (roundTo 3 (0 : ℚ)) ++ " Kg per batch)"]) ∧
    List.lookup "NOKEY000" zeroDemoStock = none ∧
    sget zeroDemoStock "NOKEY000" = 0 :=
  have h : roundTo 3 (0 : ℚ) ≤ 0 := le_of_eq (roundTo_zero 3)
  have hlk : List.lookup "NOKEY000" zeroDemoStock = none := by decide
  ⟨h, C5_total_no_division_error.1 3 zeroDemoStock ⟨"FGZ", "RM_Z0000", 0⟩ h,
   le_refl 1,
   C5_total_no_division_error.2.1 3 zeroDemoStock 1 ⟨"FGZ", "RM_Z0000", 0⟩
     (le_refl 1) h,
   hlk,
   C5_total_no_division_error.2.2.1 zeroDemoStock "NOKEY000" hlk⟩

theorem C6_witness :
    absQ ((0.001 : ℚ) * (1 / 100)) < 0.00005 ∧
    componentQty 0.001 1 = 0.0001 ∧
    ¬ absQ ((1 : ℚ) * (50 / 100)) < 0.00005 ∧
    componentQty 1 50 = roundTo 4 ((1 : ℚ) * (50 / 100)) :=
  ⟨by norm_num [absQ],
   C6_dilution_floor.1 0.001 1 (by norm_num [absQ]),
   by norm_num [absQ],
   C6_dilution_floor.2.1 1 50 (by norm_num [absQ])⟩

theorem C7_witness :
    ([⟨"RM_A0000", "RM_B0000"⟩] : List ReplacementRule) ≠ [] ∧
    ([⟨"FG1", "RM_A0000", 10⟩] : List FormulaRow) ≠ [] ∧
    ((apply_rm_replacement [⟨"RM_A0000", "RM_B0000"⟩]
        [⟨"FG1", "RM_A0000", 10⟩]).map fun r => (r.fg, r.rm)).Nodup :=
  ⟨by simp, by simp,
   C7_replacement_merge.2.2.2.2 [⟨"RM_A0000", "RM_B0000"⟩]
     [⟨"FG1", "RM_A0000", 10⟩] (by simp) (by simp)⟩

theorem C8_witness :
    isdigitStr (pyStrip "123456789") = true ∧
    8 ≤ (pyStrip "123456789").data.length ∧
    preserve_8char_code_str "123456789" = pyStrip "123456789" ∧
    isdigitStr (pyStrip " 42") = true ∧
    preserve_8char_code_str " 42" = zfill 8 (pyStrip " 42") ∧
    ¬ isdigitStr (pyStrip "AB1") = true ∧
    (pyStrip "AB1").data.length ≤ 8 ∧
    preserve_8char_code_str "AB1" = ljustZero 8 (pyStrip "AB1") ∧
    ¬ isdigitStr (pyStrip "ABCDEFGHI") = true ∧
    8 < (pyStrip "ABCDEFGHI").data.length ∧
    preserve_8char_code_str "ABCDEFGHI" =
      String.mk ((pyStrip "ABCDEFGHI").data.take 8) :=
  ⟨by decide, by decide,
   C8_normalizer_rules.2.2.2.2.2.1 "123456789" (by decide) (by decide),
   by decide,
   C8_normalizer_rules.2.2.2.2.1 " 42" (by decide),
   by decide, by decide,
   C8_normalizer_rules.2.2.2.2.2.2.1 "AB1" (by decide) (by decide),
   by decide, by decide,
   C8_normalizer_rules.2.2.2.2.2.2.2 "ABCDEFGHI" (by decide) (by decide)⟩

theorem C9_witness :
    pyStrip (preserve_8char_code_str "AB1") = preserve_8char_code_str "AB1" ∧
    preserve_8char_code_str (preserve_8char_code_str "AB1") =
      preserve_8char_code_str "AB1" :=
  ⟨by decide, C9_idempotent_amended "AB1" (by decide)⟩

end MRP
